import Mathlib

/-!
Shallow embedding of the temporal-resolution and keyframe-interpolation core
of the repository: the `Motion` class of `zunda/motion.py`, the
`TimelineMixin.get_state` interval lookup (modelled from the spec, the
mixin's source is not in the tree), and `Character.get_eye_state` of
`movis/contrib/commentary.py`.  Python floats are modelled as rationals `ℚ`,
Python lists as Lean lists, and raised exceptions as explicit error values.
-/

/-- Python runtime errors that the embedded code can raise. -/
inductive PyError
  | valueError (msg : String)
  | keyError
  | attributeError
  | typeError
  | indexError
  | assertionError
  | zeroDivisionError
  deriving DecidableEq

/-- Python sequence indexing `xs[i]`: negative indices count from the end,
an out-of-range index raises `IndexError`. -/
def pyGet {α : Type} (xs : List α) (i : ℤ) : Except PyError α :=
  let j : ℤ := if i < 0 then i + xs.length else i
  if 0 ≤ j then
    match xs.get? j.toNat with
    | some v => Except.ok v
    | none => Except.error PyError.indexError
  else Except.error PyError.indexError

/-- Python `int(x)` applied to a float: truncation toward zero. -/
def pyInt (q : ℚ) : ℤ := if q < 0 then ⌈q⌉ else ⌊q⌋

/-- Loop of CPython's `bisect.bisect_right`: binary search narrowing `[lo, hi)`
with `hi = mid` when `x < a[mid]` and `lo = mid + 1` otherwise. -/
def bisectAux (a : List ℚ) (x : ℚ) (lo hi : Nat) : Nat :=
  if h : lo < hi then
    let mid := (lo + hi) / 2
    if x < a.getD mid 0 then bisectAux a x lo mid
    else bisectAux a x (mid + 1) hi
  else lo
termination_by hi - lo
decreasing_by
  · omega
  · omega

/-- Python's `bisect.bisect(a, x)` (= `bisect_right`): the insertion point for
`x` in `a` that comes after any entries equal to `x`, assuming `a` sorted. -/
def bisectRight (a : List ℚ) (x : ℚ) : Nat := bisectAux a x 0 a.length

/-- Number of entries of `a` that are `≤ x`; for a sorted list this is the
`bisect_right` insertion point. -/
def countLE (a : List ℚ) (x : ℚ) : ℕ := a.countP (fun y => decide (y ≤ x))

/-- The easing functions of the fixed registry `motion_types_to_func` in
`zunda/motion.py`, as a closed enumeration.  In Python each name maps to a
distinct function object; equality of `Easing` values models identity (`is` /
`==`) of those function objects. -/
inductive Easing
  | linear
  | ease_in
  | ease_out
  | ease_in_out
  | ease_in_cubic
  | ease_out_cubic
  | ease_in_expo
  | ease_out_expo
  deriving DecidableEq

/-- Rational stand-in for Python's `math.exp`, used only by the two
exponential easings.  No claim under verification evaluates these easings,
so only totality matters; we use the degree-6 Taylor polynomial of `exp` as
a concrete definition. -/
def mathExp (x : ℚ) : ℚ :=
  1 + x + x ^ 2 / 2 + x ^ 3 / 6 + x ^ 4 / 24 + x ^ 5 / 120 + x ^ 6 / 720

/-- Bodies of the easing lambdas of `motion_types_to_func`. -/
def Easing.apply : Easing → ℚ → ℚ
  | .linear, t => t
  | .ease_in, t => t ^ 2
  | .ease_out, t => 1 - (1 - t) ^ 2
  | .ease_in_out, t => t ^ 2 * (3 - 2 * t)
  | .ease_in_cubic, t => t ^ 3
  | .ease_out_cubic, t => 1 - (1 - t) ^ 3
  | .ease_in_expo, t => mathExp (-10 * (1 - t))
  | .ease_out_expo, t => 1 - mathExp (-10 * t)

/-- The registry dict `motion_types_to_func` of `zunda/motion.py`; looking up
a missing key raises `KeyError` at the use sites. -/
def motion_types_to_func : List (String × Easing) :=
  [("linear", .linear), ("ease_in", .ease_in), ("ease_out", .ease_out),
   ("ease_in_out", .ease_in_out), ("ease_in_cubic", .ease_in_cubic),
   ("ease_out_cubic", .ease_out_cubic), ("ease_in_expo", .ease_in_expo),
   ("ease_out_expo", .ease_out_expo)]

/-- Values stored in a `Motion[T]`: `T` is `float` or `Tuple[float, float]`.
A single curve is homogeneous in Python's typing, but the class checks the
shapes dynamically at interpolation time, so the embedding keeps both shapes
in one type. -/
inductive Val
  | scalar (x : ℚ)
  | pair (fst snd : ℚ)
  deriving DecidableEq

/-- Shape tag used to state homogeneity of a curve's values. -/
def Val.isPair : Val → Bool
  | .scalar _ => false
  | .pair _ _ => true

/-- State of a `zunda.motion.Motion` object.  `tupled` records whether the
three sequences are Python tuples rather than lists: `extend` assigns the
tuples produced by `zip(*zipped)` back to the fields, after which
`list.insert` is unavailable (`AttributeError`) and `tuple + list` raises
`TypeError`. -/
structure Motion where
  keyframes : List ℚ
  values : List Val
  motion_types : List Easing
  default_value : Option Val
  tupled : Bool
  deriving DecidableEq

/-- Constructor `Motion.__init__`: empty sequences, optional default value. -/
def Motion.init (default_value : Option Val) : Motion :=
  { keyframes := [], values := [], motion_types := [], default_value := default_value,
    tupled := false }

/-- Linear interpolation branch of `Motion.__call__`: both bracketing values
must share a shape; mixed shapes raise `ValueError('Unexpected value: ...')`. -/
def lerpVal : Val → Val → ℚ → Except PyError Val
  | .scalar m, .scalar M, t => Except.ok (.scalar (m + (M - m) * t))
  | .pair m0 m1, .pair M0 M1, t =>
      Except.ok (.pair (m0 + (M0 - m0) * t) (m1 + (M1 - m1) * t))
  | _, _, _ => Except.error (PyError.valueError "Unexpected value")

/-- Evaluation `Motion.__call__(layer_time)`: default or `ValueError` on an
empty curve, the single value on a one-point curve, clamping outside the
keyframe range, and otherwise eased linear interpolation on the bracketing
pair found by `bisect.bisect`.  Division of floats by `0.0` raises
`ZeroDivisionError` in Python, hence the explicit duration check. -/
def Motion.call (m : Motion) (layer_time : ℚ) : Except PyError Val :=
  if m.keyframes.length = 0 then
    match m.default_value with
    | some v => Except.ok v
    | none => Except.error (PyError.valueError "No keyframes")
  else if m.keyframes.length = 1 then
    pyGet m.values 0
  else do
    let k0 ← pyGet m.keyframes 0
    if layer_time < k0 then
      pyGet m.values 0
    else do
      let kLast ← pyGet m.keyframes (-1)
      if kLast ≤ layer_time then
        pyGet m.values (-1)
      else do
        let i : ℤ := bisectRight m.keyframes layer_time
        let vlo ← pyGet m.values (i - 1)
        let vhi ← pyGet m.values i
        let khi ← pyGet m.keyframes i
        let klo ← pyGet m.keyframes (i - 1)
        let duration := khi - klo
        if duration = 0 then Except.error PyError.zeroDivisionError
        else do
          let t := (layer_time - klo) / duration
          let f ← pyGet m.motion_types (i - 1)
          lerpVal vlo vhi (f.apply t)

/-- Coercion `Motion._cast`: `float(...)` applied to each component.  On the
rational model of floats this is the identity, written out by shape to mirror
the Python branches. -/
def Motion._cast : Val → Val
  | .scalar x => .scalar x
  | .pair a b => .pair a b

/-- Mutation `Motion.append(keyframe, value, motion_type)`.  The result is the
post-call object state paired with the raised exception, if any: Python
mutates `keyframes` and `values` by `list.insert` before evaluating the
registry lookup `motion_types_to_func[motion_type]`, so an unknown easing
name raises `KeyError` with the first two sequences already extended.  On a
tupled (post-`extend`) object the very first `insert` raises
`AttributeError` before any mutation. -/
def Motion.append (m : Motion) (keyframe : ℚ) (value : Val) (motion_type : String) :
    Motion × Option PyError :=
  if m.tupled then (m, some PyError.attributeError)
  else
    let i := bisectRight m.keyframes keyframe
    let m1 : Motion :=
      { m with keyframes := List.insertIdx i keyframe m.keyframes,
               values := List.insertIdx i (Motion._cast value) m.values }
    match motion_types_to_func.lookup motion_type with
    | some f => ({ m1 with motion_types := List.insertIdx i f m1.motion_types }, none)
    | none => (m1, some PyError.keyError)

/-- Entries of the zipped triple list `zip(keyframes, values, motion_types)`
used by `extend`; like Python's `zip` it truncates to the shortest input. -/
def zip3 (ks : List ℚ) (vs : List Val) (fs : List Easing) : List (ℚ × Val × Easing) :=
  List.zipWith3 (fun k v f => (k, v, f)) ks vs fs

/-- Comparison of two stored values by Python `<` / `==`: floats numerically,
2-tuples lexicographically.  Python raises `TypeError` when comparing a float
with a tuple; a `Motion[T]` is homogeneous so that case is unreachable, and
the embedding totalizes it by ranking scalars below pairs. -/
def Val.leB : Val → Val → Bool
  | .scalar a, .scalar b => a ≤ b
  | .pair a b, .pair c d => a < c || (a = c && b ≤ d)
  | .scalar _, .pair _ _ => true
  | .pair _ _, .scalar _ => false

/-- Ordering used by `sorted(zip(keyframes, values, motion_types))`: Python
compares the triples lexicographically, so ties in time are broken by the
value, not by provenance.  When both time and value are equal Python next
compares the two stored function objects: `==` (identity) succeeds and `<`
raises `TypeError`; a stable sort under this `le` agrees with Python's
stable `sorted` whenever Python does not raise, keeping entries equal in
(time, value) in their original relative order. -/
def entryLE (e f : ℚ × Val × Easing) : Bool :=
  e.1 < f.1 || (e.1 = f.1 && Val.leB e.2.1 f.2.1)

/-- Mutation `Motion.extend(keyframes, values, motion_types)`: length asserts,
concatenation with the current sequences (`tuple + list` raises `TypeError`
on a post-`extend` object), registry lookup of every easing name, a full
stable re-sort of the zipped triples, and `zip(*zipped)` unpacking — which
raises `ValueError` when `zipped` is empty and otherwise replaces the three
fields by tuples. -/
def Motion.extend (m : Motion) (keyframes : List ℚ) (values : List Val)
    (motion_types : Option (List String)) : Motion × Option PyError :=
  if keyframes.length ≠ values.length then (m, some PyError.assertionError)
  else if motion_types.isSome = true ∧ keyframes.length ≠ (motion_types.getD []).length then
    (m, some PyError.assertionError)
  else
    let mts := match motion_types with
      | none => List.replicate keyframes.length "linear"
      | some l => l
    if m.tupled then (m, some PyError.typeError)
    else
      match mts.mapM (fun s => motion_types_to_func.lookup s) with
      | none => (m, some PyError.keyError)
      | some es =>
        let ks := m.keyframes ++ keyframes
        let vs := m.values ++ values.map Motion._cast
        let fs := m.motion_types ++ es
        let zipped := zip3 ks vs fs
        let zs := zipped.mergeSort entryLE
        if zs.isEmpty then (m, some (PyError.valueError "not enough values to unpack"))
        else
          ({ keyframes := zs.map (fun e => e.1),
             values := zs.map (fun e => e.2.1),
             motion_types := zs.map (fun e => e.2.2),
             default_value := m.default_value,
             tupled := true }, none)

/-- Sequence of individual `append` calls; Python exceptions abort the
sequence at the first failing call. -/
def appendAll (m : Motion) : List (ℚ × Val × String) → Motion × Option PyError
  | [] => (m, none)
  | x :: xs =>
    match m.append x.1 x.2.1 x.2.2 with
    | (m', none) => appendAll m' xs
    | (m', some e) => (m', some e)

/-- Alignment invariant of a `Motion`: the three sequences have equal
length. -/
def Motion.Aligned (m : Motion) : Prop :=
  m.values.length = m.keyframes.length ∧ m.motion_types.length = m.keyframes.length

/-- Sortedness invariant of a `Motion`: keyframe times ascend
(non-strictly). -/
def Motion.SortedKeys (m : Motion) : Prop :=
  List.Sorted (· ≤ ·) m.keyframes

/-- Triple view of a `Motion`'s parallel sequences. -/
def Motion.entries (m : Motion) : List (ℚ × Val × Easing) :=
  zip3 m.keyframes m.values m.motion_types

/-- Entry produced by a caller-supplied `(time, value, easing-name)` triple
once the value has been cast and the easing name resolved in the registry
(it defaults to `linear` only for unregistered names, which the theorems
below exclude by hypothesis). -/
def entryOf (x : ℚ × Val × String) : ℚ × Val × Easing :=
  (x.1, Motion._cast x.2.1, (motion_types_to_func.lookup x.2.2).getD Easing.linear)

/-- Interval timeline of the spec's `TimelineIndex` / the repository's
`movis.layer.mixin.TimelineMixin`: parallel arrays of interval start and end
times. -/
structure TimelineMixin where
  start_times : List ℚ
  end_times : List ℚ

/-- Modelled from the spec: `TimelineMixin.get_state` (the spec's
`TimelineIndex.resolve`) lives in `movis/layer/mixin.py`, which is not under
`src/`; only its import and its callers in `movis/contrib/commentary.py`
are.  The spec contract: return the 0-based index `i` of the first interval
with `start_times[i] <= time < end_times[i]`, and `-1` if no interval
contains `time`. -/
def TimelineMixin.get_state (tl : TimelineMixin) (time : ℚ) : ℤ :=
  match (tl.start_times.zip tl.end_times).findIdx?
      (fun p => decide (p.1 ≤ time ∧ time < p.2)) with
  | some i => (i : ℤ)
  | none => -1

/-- Containment of `time` in the `i`-th interval of a timeline. -/
def TimelineMixin.containsAt (tl : TimelineMixin) (i : ℕ) (time : ℚ) : Prop :=
  ∃ s e, tl.start_times.get? i = some s ∧ tl.end_times.get? i = some e ∧
    s ≤ time ∧ time < e

/-- State of a `movis.contrib.commentary.Character` relevant to
`get_eye_state`: the per-segment emotion labels, the eye-image dictionary
(only the number of images per emotion matters), and the blink
parameters. -/
structure Character where
  character_name : String
  character_timeline : List String
  eye_imgs : List (String × ℕ)
  blink_per_minute : ℤ
  blink_duration : ℚ

/-- Helper `rand_from_string(string, seed=0)` nested in `get_eye_state`:
`sha` models taking the first four digest bytes of `hashlib.sha224` of the
UTF-8 encoded argument as a little-endian `uint32`, and `mt` models
`np.random.RandomState(x).rand()`; both are fixed pure functions of their
argument.  The body first rebinds `string = f"{seed}:{string}"` and then
hashes `f"{seed}:{string}"` of the rebound string, so the seed prefix is
applied twice, exactly as in the source. -/
def rand_from_string (sha : String → ℕ) (mt : ℕ → ℚ) (string : String) (seed : ℤ) : ℚ :=
  let string := toString seed ++ ":" ++ string
  mt (sha (toString seed ++ ":" ++ string))

/-- Method `Character.get_eye_state(time, idx)`: `-1` when the current
emotion has no eye images, `0` when it has exactly one, otherwise a
hash-derived draw decides whether a blink is active in the current
`blink_duration`-sized bucket, and if so the elapsed sub-bucket time is
mapped to a frame in `[1, len-1]`.  Float division by `0.0` raises
`ZeroDivisionError` in Python, hence the explicit checks. -/
def Character.get_eye_state (c : Character) (sha : String → ℕ) (mt : ℕ → ℚ)
    (time : ℚ) (idx : ℤ) : Except PyError ℤ := do
  let emotion ← pyGet c.character_timeline idx
  match c.eye_imgs.lookup emotion with
  | none => pure (-1)
  | some len =>
    if len = 1 then pure 0
    else
      let p_threshold := (c.blink_per_minute : ℚ) * c.blink_duration / 60
      if c.blink_duration = 0 then Except.error PyError.zeroDivisionError
      else do
        let n := pyInt (time / c.blink_duration)
        let p := rand_from_string sha mt (c.character_name ++ ":" ++ toString n) 0
        if p < p_threshold then
          let frame_duration := c.blink_duration / ((len : ℚ) - 1)
          if frame_duration = 0 then Except.error PyError.zeroDivisionError
          else
            let t1 := time - (n : ℚ) * c.blink_duration
            let n1 := pyInt (t1 / frame_duration)
            pure (min (n1 + 1) ((len : ℤ) - 1))
        else pure 0

/-- Call to `get_eye_state` with the ambient mutable state of the process
(the global `numpy` random generator, any record of earlier calls) threaded
explicitly.  The method body reads only `hashlib.sha224` of its argument
string and a `RandomState` freshly seeded from that digest, so the
translation neither reads nor writes the ambient state. -/
def Character.get_eye_state_run {σ : Type} (c : Character) (sha : String → ℕ)
    (mt : ℕ → ℚ) (time : ℚ) (idx : ℤ) (amb : σ) : Except PyError ℤ × σ :=
  (c.get_eye_state sha mt time idx, amb)

/-! ### Reduction lemmas for the `Except` monad and Python indexing -/

theorem except_bind_ok {α β : Type} (a : α) (f : α → Except PyError β) :
    (Except.ok a : Except PyError α) >>= f = f a := rfl

theorem except_bind_error {α β : Type} (e : PyError) (f : α → Except PyError β) :
    (Except.error e : Except PyError α) >>= f = Except.error e := rfl

theorem pyGet_nat {α : Type} (xs : List α) (i : ℕ) (h : i < xs.length) :
    pyGet xs (i : ℤ) = Except.ok (xs.get ⟨i, h⟩) := by
  simp only [pyGet]
  rw [show (if (i : ℤ) < 0 then (i : ℤ) + xs.length else (i : ℤ)) = (i : ℤ) from
    if_neg (by omega)]
  rw [if_pos (by omega)]
  rw [show ((i : ℤ)).toNat = i by omega]
  rw [List.get?_eq_get h]

theorem pyGet_neg_one {α : Type} (xs : List α) (h : 0 < xs.length) :
    pyGet xs (-1) = Except.ok (xs.get ⟨xs.length - 1, by omega⟩) := by
  simp only [pyGet]
  rw [show (if (-1 : ℤ) < 0 then (-1 : ℤ) + xs.length else (-1 : ℤ)) =
      (-1 : ℤ) + xs.length from if_pos (by norm_num)]
  rw [if_pos (by omega)]
  rw [show ((-1 : ℤ) + xs.length).toNat = xs.length - 1 by omega]
  rw [List.get?_eq_get (by omega)]

/-! ### Correctness of the binary search `bisect_right` -/

theorem sorted_get_le_iff (a : List ℚ) (x : ℚ) (hs : List.Sorted (· ≤ ·) a)
    (j : ℕ) (hj : j < a.length) :
    (a.get ⟨j, hj⟩ ≤ x ↔ j < countLE a x) := by
  induction a generalizing j with
  | nil => simp at hj
  | cons b t ih =>
    rw [List.sorted_cons] at hs
    obtain ⟨hb, ht⟩ := hs
    by_cases hbx : b ≤ x
    · rw [countLE, List.countP_cons, if_pos (by simpa using hbx)]
      cases j with
      | zero =>
        exact iff_of_true hbx (by omega)
      | succ j =>
        have hj' : j < t.length := by
          simp only [List.length_cons] at hj
          omega
        have ihj := ih ht j hj'
        rw [countLE] at ihj
        have hg : (b :: t).get ⟨j + 1, hj⟩ = t.get ⟨j, hj'⟩ := rfl
        rw [hg, ihj]
        omega
    · have ht0 : t.countP (fun y => decide (y ≤ x)) = 0 := by
        rw [List.countP_eq_zero]
        intro y hy
        have hby := hb y hy
        simpa using fun hyx => hbx (le_trans hby hyx)
      rw [countLE, List.countP_cons, if_neg (by simpa using hbx), ht0]
      cases j with
      | zero =>
        exact iff_of_false hbx (by omega)
      | succ j =>
        have hj' : j < t.length := by
          simp only [List.length_cons] at hj
          omega
        have hg : (b :: t).get ⟨j + 1, hj⟩ = t.get ⟨j, hj'⟩ := rfl
        rw [hg]
        constructor
        · intro hjx
          exact absurd (le_trans (hb _ (List.get_mem t _ _)) hjx) hbx
        · omega

theorem countLE_le_length (a : List ℚ) (x : ℚ) : countLE a x ≤ a.length :=
  List.countP_le_length _

theorem bisectAux_eq (a : List ℚ) (x : ℚ) (hs : List.Sorted (· ≤ ·) a) (lo hi : Nat) :
    hi ≤ a.length → lo ≤ countLE a x → countLE a x ≤ hi →
    bisectAux a x lo hi = countLE a x := by
  induction lo, hi using bisectAux.induct a x with
  | case1 lo hi h mid hx ih =>
    intro hhi hlo hcnt
    rw [bisectAux, dif_pos h]
    show (if x < a.getD ((lo + hi) / 2) 0 then bisectAux a x lo ((lo + hi) / 2)
      else bisectAux a x ((lo + hi) / 2 + 1) hi) = countLE a x
    have hx' : x < a.getD ((lo + hi) / 2) 0 := hx
    rw [if_pos hx']
    have hmid : (lo + hi) / 2 < a.length := by omega
    have hcm : countLE a x ≤ (lo + hi) / 2 := by
      by_contra hlt
      push_neg at hlt
      have := (sorted_get_le_iff a x hs _ hmid).2 hlt
      rw [List.getD_eq_getElem _ _ hmid] at hx'
      exact absurd this (not_le.2 hx')
    exact ih (by omega) hlo hcm
  | case2 lo hi h mid hx ih =>
    intro hhi hlo hcnt
    rw [bisectAux, dif_pos h]
    show (if x < a.getD ((lo + hi) / 2) 0 then bisectAux a x lo ((lo + hi) / 2)
      else bisectAux a x ((lo + hi) / 2 + 1) hi) = countLE a x
    have hx' : ¬x < a.getD ((lo + hi) / 2) 0 := hx
    rw [if_neg hx']
    have hmid : (lo + hi) / 2 < a.length := by omega
    rw [List.getD_eq_getElem _ _ hmid] at hx'
    have hcm : (lo + hi) / 2 < countLE a x :=
      (sorted_get_le_iff a x hs _ hmid).1 (not_lt.1 hx')
    exact ih hhi (by omega) hcnt
  | case3 lo hi h =>
    intro hhi hlo hcnt
    rw [bisectAux, dif_neg h]
    omega

theorem bisectRight_eq_countLE (a : List ℚ) (x : ℚ) (hs : List.Sorted (· ≤ ·) a) :
    bisectRight a x = countLE a x :=
  bisectAux_eq a x hs 0 a.length le_rfl (Nat.zero_le _) (countLE_le_length a x)

theorem pyGet_getD {α : Type} (xs : List α) (i : ℕ) (h : i < xs.length) (d : α) :
    pyGet xs (i : ℤ) = Except.ok (xs.getD i d) := by
  rw [pyGet_nat xs i h]
  rw [List.get_eq_getElem, List.getD_eq_getElem xs d h]

theorem pyGet_neg_one_getD {α : Type} (xs : List α) (h : 0 < xs.length) (d : α) :
    pyGet xs (-1) = Except.ok (xs.getD (xs.length - 1) d) := by
  rw [pyGet_neg_one xs h]
  rw [List.get_eq_getElem, List.getD_eq_getElem xs d (by omega)]

/-! ### Evaluation of `Motion.__call__`: the branches of the claim theorems -/

/-- C8: evaluating an empty curve returns the construction-time default value
when one was supplied and raises `ValueError('No keyframes')` otherwise.  The
embedding of `__call__` is a pure function of the object state, which is how
the claim's "the curve is not modified" is rendered. -/
theorem motion_call_empty (m : Motion) (t : ℚ) (h : m.keyframes = []) :
    (∀ v, m.default_value = some v → m.call t = Except.ok v) ∧
    (m.default_value = none →
      m.call t = Except.error (PyError.valueError "No keyframes")) := by
  constructor
  · intro v hv
    simp [Motion.call, h, hv]
  · intro hv
    simp [Motion.call, h, hv]

/-- Witness for `motion_call_empty`: a freshly initialized curve with default
value `7.0` evaluates to `7.0`, and one with no default raises. -/
theorem motion_call_empty_witness :
    (Motion.init (some (Val.scalar 7))).call 3 = Except.ok (Val.scalar 7) ∧
    (Motion.init none).call 3 = Except.error (PyError.valueError "No keyframes") :=
  ⟨(motion_call_empty (Motion.init (some (Val.scalar 7))) 3 rfl).1 (Val.scalar 7) rfl,
   (motion_call_empty (Motion.init none) 3 rfl).2 rfl⟩

/-- C3: on a curve with at least one keyframe, evaluation clamps — a query
before the first keyframe returns the first value, a query at or after the
last keyframe returns the last value, and with a single keyframe the single
value is returned for every query time. -/
theorem motion_call_clamps (m : Motion) (t : ℚ)
    (hs : m.SortedKeys) (ha : m.Aligned) (h1 : 1 ≤ m.keyframes.length) :
    (t < m.keyframes.getD 0 0 → m.call t = Except.ok (m.values.getD 0 (Val.scalar 0))) ∧
    (m.keyframes.getD (m.keyframes.length - 1) 0 ≤ t →
      m.call t = Except.ok (m.values.getD (m.values.length - 1) (Val.scalar 0))) ∧
    (m.keyframes.length = 1 → m.call t = Except.ok (m.values.getD 0 (Val.scalar 0))) := by
  have hov : m.values.length = m.keyframes.length := ha.1
  by_cases hlen1 : m.keyframes.length = 1
  · have hcall : m.call t = pyGet m.values 0 := by
      simp only [Motion.call]
      rw [if_neg (by omega), if_pos hlen1]
    have hok : pyGet m.values 0 = Except.ok (m.values.getD 0 (Val.scalar 0)) := by
      have := pyGet_getD m.values 0 (by omega) (Val.scalar 0)
      simpa using this
    have hlast0 : m.values.length - 1 = 0 := by omega
    exact ⟨fun _ => by rw [hcall, hok],
           fun _ => by rw [hcall, hok, hlast0],
           fun _ => by rw [hcall, hok]⟩
  · have hlen2 : 2 ≤ m.keyframes.length := by omega
    have hkf0 : pyGet m.keyframes 0 = Except.ok (m.keyframes.getD 0 0) := by
      have := pyGet_getD m.keyframes 0 (by omega) (0 : ℚ)
      simpa using this
    have hkfl : pyGet m.keyframes (-1) =
        Except.ok (m.keyframes.getD (m.keyframes.length - 1) 0) :=
      pyGet_neg_one_getD _ (by omega) _
    have hv0 : pyGet m.values 0 = Except.ok (m.values.getD 0 (Val.scalar 0)) := by
      have := pyGet_getD m.values 0 (by omega) (Val.scalar 0)
      simpa using this
    have hvl : pyGet m.values (-1) =
        Except.ok (m.values.getD (m.values.length - 1) (Val.scalar 0)) :=
      pyGet_neg_one_getD _ (by omega) _
    refine ⟨fun hlt => ?_, fun hge => ?_, fun h1' => absurd h1' hlen1⟩
    · simp only [Motion.call, hkf0, hkfl, hv0, hvl, except_bind_ok]
      rw [if_neg (by omega), if_neg (by omega), if_pos hlt]
    · have h0l : m.keyframes.getD 0 0 ≤ m.keyframes.getD (m.keyframes.length - 1) 0 := by
        have hlt : (⟨0, by omega⟩ : Fin m.keyframes.length) <
            ⟨m.keyframes.length - 1, by omega⟩ := by
          simp only [Fin.lt_def]
          omega
        have hrel := List.Sorted.rel_get_of_lt hs hlt
        rw [List.get_eq_getElem, List.get_eq_getElem] at hrel
        rw [List.getD_eq_getElem _ _ (by omega), List.getD_eq_getElem _ _ (by omega)]
        exact hrel
      simp only [Motion.call, hkf0, hkfl, hv0, hvl, except_bind_ok]
      rw [if_neg (by omega), if_neg (by omega),
          if_neg (not_lt.2 (le_trans h0l hge)), if_pos hge]

theorem lerpVal_ok_of_isPair_eq (v1 v2 : Val) (t : ℚ) (h : v1.isPair = v2.isPair) :
    ∃ v, lerpVal v1 v2 t = Except.ok v := by
  cases v1 <;> cases v2
  · exact ⟨_, rfl⟩
  · simp [Val.isPair] at h
  · simp [Val.isPair] at h
  · exact ⟨_, rfl⟩

/-- C1: on a sorted, aligned, shape-homogeneous curve with at least two
keyframes, a query strictly between the first and the last keyframe is
resolved by `bisect.bisect` to the bracketing pair `(i-1, i)` with
`keyframes[i-1] <= q < keyframes[i]`, and evaluation returns the linear
interpolation of `values[i-1]` and `values[i]` under the easing of index
`i-1` applied to the normalized progress, component-wise for pairs. -/
theorem motion_call_interpolates (m : Motion) (q : ℚ)
    (hs : m.SortedKeys) (ha : m.Aligned) (h2 : 2 ≤ m.keyframes.length)
    (hom : ∃ b, ∀ v ∈ m.values, v.isPair = b)
    (hlo : m.keyframes.getD 0 0 < q)
    (hhi : q < m.keyframes.getD (m.keyframes.length - 1) 0) :
    ∃ i v, i = bisectRight m.keyframes q ∧ 1 ≤ i ∧ i < m.keyframes.length ∧
      m.keyframes.getD (i - 1) 0 ≤ q ∧ q < m.keyframes.getD i 0 ∧
      lerpVal (m.values.getD (i - 1) (Val.scalar 0)) (m.values.getD i (Val.scalar 0))
        ((m.motion_types.getD (i - 1) Easing.linear).apply
          ((q - m.keyframes.getD (i - 1) 0) /
            (m.keyframes.getD i 0 - m.keyframes.getD (i - 1) 0))) = Except.ok v ∧
      m.call q = Except.ok v := by
  have hov : m.values.length = m.keyframes.length := ha.1
  have hom2 : m.motion_types.length = m.keyframes.length := ha.2
  have hbis : bisectRight m.keyframes q = countLE m.keyframes q :=
    bisectRight_eq_countLE _ _ hs
  set i := countLE m.keyframes q with hidef
  have hcle : i ≤ m.keyframes.length := countLE_le_length _ _
  have hi1 : 1 ≤ i := by
    have h0 := (sorted_get_le_iff m.keyframes q hs 0 (by omega)).1
    rw [List.get_eq_getElem, ← List.getD_eq_getElem _ (0 : ℚ) (by omega)] at h0
    have := h0 (le_of_lt hlo)
    omega
  have hilen : i < m.keyframes.length := by
    by_contra hcon
    push_neg at hcon
    have hl := (sorted_get_le_iff m.keyframes q hs (m.keyframes.length - 1)
      (by omega)).2 (by omega)
    rw [List.get_eq_getElem, ← List.getD_eq_getElem _ (0 : ℚ) (by omega)] at hl
    exact absurd hl (not_le.2 hhi)
  have hbr1 : m.keyframes.getD (i - 1) 0 ≤ q := by
    have hl := (sorted_get_le_iff m.keyframes q hs (i - 1) (by omega)).2 (by omega)
    rw [List.get_eq_getElem, ← List.getD_eq_getElem _ (0 : ℚ) (by omega)] at hl
    exact hl
  have hbr2 : q < m.keyframes.getD i 0 := by
    by_contra hcon
    push_neg at hcon
    have hl := (sorted_get_le_iff m.keyframes q hs i (by omega)).1
    rw [List.get_eq_getElem, ← List.getD_eq_getElem _ (0 : ℚ) (by omega)] at hl
    exact absurd (hl hcon) (by omega)
  have hdur : ¬(m.keyframes.getD i 0 - m.keyframes.getD (i - 1) 0 = 0) :=
    sub_ne_zero.2 (ne_of_gt (lt_of_le_of_lt hbr1 hbr2))
  have hkf0 : pyGet m.keyframes 0 = Except.ok (m.keyframes.getD 0 0) := by
    have := pyGet_getD m.keyframes 0 (by omega) (0 : ℚ)
    simpa using this
  have hkfl : pyGet m.keyframes (-1) =
      Except.ok (m.keyframes.getD (m.keyframes.length - 1) 0) :=
    pyGet_neg_one_getD _ (by omega) _
  have hcast : ((i : ℤ) - 1) = ((i - 1 : ℕ) : ℤ) := by omega
  have e1 : pyGet m.values ((i : ℤ) - 1) =
      Except.ok (m.values.getD (i - 1) (Val.scalar 0)) := by
    rw [hcast]
    exact pyGet_getD _ _ (by omega) _
  have e2 : pyGet m.values (i : ℤ) = Except.ok (m.values.getD i (Val.scalar 0)) :=
    pyGet_getD _ _ (by omega) _
  have e3 : pyGet m.keyframes (i : ℤ) = Except.ok (m.keyframes.getD i 0) :=
    pyGet_getD _ _ (by omega) _
  have e4 : pyGet m.keyframes ((i : ℤ) - 1) =
      Except.ok (m.keyframes.getD (i - 1) 0) := by
    rw [hcast]
    exact pyGet_getD _ _ (by omega) _
  have e5 : pyGet m.motion_types ((i : ℤ) - 1) =
      Except.ok (m.motion_types.getD (i - 1) Easing.linear) := by
    rw [hcast]
    exact pyGet_getD _ _ (by omega) _
  have hcall : m.call q =
      lerpVal (m.values.getD (i - 1) (Val.scalar 0)) (m.values.getD i (Val.scalar 0))
        ((m.motion_types.getD (i - 1) Easing.linear).apply
          ((q - m.keyframes.getD (i - 1) 0) /
            (m.keyframes.getD i 0 - m.keyframes.getD (i - 1) 0))) := by
    simp only [Motion.call, hbis, ← hidef, hkf0, hkfl, e1, e2, e3, e4, e5, except_bind_ok]
    rw [if_neg (by omega), if_neg (by omega), if_neg (not_lt.2 (le_of_lt hlo)),
        if_neg (not_le.2 hhi), if_neg hdur]
  obtain ⟨b, hb⟩ := hom
  have hm1 : m.values.getD (i - 1) (Val.scalar 0) ∈ m.values := by
    rw [List.getD_eq_getElem _ _ (by omega)]
    exact List.getElem_mem _
  have hm2 : m.values.getD i (Val.scalar 0) ∈ m.values := by
    rw [List.getD_eq_getElem _ _ (by omega)]
    exact List.getElem_mem _
  obtain ⟨v, hv⟩ := lerpVal_ok_of_isPair_eq _ _
    ((q - m.keyframes.getD (i - 1) 0) /
      (m.keyframes.getD i 0 - m.keyframes.getD (i - 1) 0) |>
        (m.motion_types.getD (i - 1) Easing.linear).apply)
    ((hb _ hm1).trans (hb _ hm2).symm)
  exact ⟨i, v, hbis.symm, hi1, hilen, hbr1, hbr2, hv, by rw [hcall, hv]⟩

/-- Witness for `motion_call_interpolates`: the curve with keyframes
`[(0.0, 0.0), (10.0, 100.0)]` and linear easing, queried at `5.0`. -/
theorem motion_call_interpolates_witness :
    ∃ i v, i = bisectRight [0, 10] 5 ∧ 1 ≤ i ∧ i < ([0, 10] : List ℚ).length ∧
      ([0, 10] : List ℚ).getD (i - 1) 0 ≤ 5 ∧ (5 : ℚ) < ([0, 10] : List ℚ).getD i 0 ∧
      lerpVal ([Val.scalar 0, Val.scalar 100].getD (i - 1) (Val.scalar 0))
        ([Val.scalar 0, Val.scalar 100].getD i (Val.scalar 0))
        (([Easing.linear, Easing.linear].getD (i - 1) Easing.linear).apply
          ((5 - ([0, 10] : List ℚ).getD (i - 1) 0) /
            (([0, 10] : List ℚ).getD i 0 - ([0, 10] : List ℚ).getD (i - 1) 0))) =
        Except.ok v ∧
      (Motion.mk [0, 10] [Val.scalar 0, Val.scalar 100] [Easing.linear, Easing.linear]
        none false).call 5 = Except.ok v :=
  motion_call_interpolates
    (Motion.mk [0, 10] [Val.scalar 0, Val.scalar 100] [Easing.linear, Easing.linear]
      none false) 5
    (by norm_num [Motion.SortedKeys, List.sorted_cons])
    ⟨rfl, rfl⟩ (by norm_num)
    ⟨false, by simp [Val.isPair]⟩
    (by norm_num [List.getD]) (by norm_num [List.getD])

/-- Witness for `motion_call_clamps`: the single-keyframe curve `(5.0, 10.0)`
evaluates to `10.0` both far after and far before its keyframe. -/
theorem motion_call_clamps_witness :
    (Motion.mk [5] [Val.scalar 10] [Easing.linear] none false).call 100 =
      Except.ok (Val.scalar 10) ∧
    (Motion.mk [5] [Val.scalar 10] [Easing.linear] none false).call (-3) =
      Except.ok (Val.scalar 10) :=
  ⟨(motion_call_clamps _ 100 (by simp [Motion.SortedKeys]) ⟨rfl, rfl⟩ (by norm_num)).2.1
      (by norm_num [List.getD]),
   (motion_call_clamps _ (-3) (by simp [Motion.SortedKeys]) ⟨rfl, rfl⟩ (by norm_num)).1
      (by norm_num [List.getD])⟩

/-! ### Branch equations for `Motion.extend` -/

theorem motion_extend_assert1 (m : Motion) (ks : List ℚ) (vs : List Val)
    (mts : Option (List String)) (h : ks.length ≠ vs.length) :
    m.extend ks vs mts = (m, some PyError.assertionError) := by
  unfold Motion.extend
  rw [if_pos h]

theorem motion_extend_assert2 (m : Motion) (ks : List ℚ) (vs : List Val)
    (l : List String) (h1 : ks.length = vs.length) (h : ks.length ≠ l.length) :
    m.extend ks vs (some l) = (m, some PyError.assertionError) := by
  unfold Motion.extend
  rw [if_neg (by omega), if_pos (by simp [h])]

theorem motion_extend_on_tupled (m : Motion) (ks : List ℚ) (vs : List Val)
    (mts : Option (List String)) (h1 : ks.length = vs.length)
    (h2 : ¬(mts.isSome = true ∧ ks.length ≠ (mts.getD []).length))
    (htup : m.tupled = true) :
    m.extend ks vs mts = (m, some PyError.typeError) := by
  unfold Motion.extend
  rw [if_neg (by omega), if_neg h2, if_pos (by simp [htup])]

theorem motion_extend_keyerror (m : Motion) (ks : List ℚ) (vs : List Val)
    (l : List String) (h1 : ks.length = vs.length) (h2 : ks.length = l.length)
    (htup : m.tupled = false)
    (hmapM : l.mapM (fun s => List.lookup s motion_types_to_func) = none) :
    m.extend ks vs (some l) = (m, some PyError.keyError) := by
  unfold Motion.extend
  rw [if_neg (by omega), if_neg (by simp [h2]), if_neg (by simp [htup])]
  simp only []
  rw [hmapM]

theorem motion_extend_eq (m : Motion) (ks : List ℚ) (vs : List Val)
    (l : List String) (es : List Easing)
    (h1 : ks.length = vs.length) (h2 : ks.length = l.length)
    (htup : m.tupled = false)
    (hmapM : l.mapM (fun s => List.lookup s motion_types_to_func) = some es) :
    m.extend ks vs (some l) =
      (if ((zip3 (m.keyframes ++ ks) (m.values ++ vs.map Motion._cast)
          (m.motion_types ++ es)).mergeSort entryLE).isEmpty then
        (m, some (PyError.valueError "not enough values to unpack"))
       else
        ({ keyframes := ((zip3 (m.keyframes ++ ks) (m.values ++ vs.map Motion._cast)
              (m.motion_types ++ es)).mergeSort entryLE).map (fun e => e.1),
           values := ((zip3 (m.keyframes ++ ks) (m.values ++ vs.map Motion._cast)
              (m.motion_types ++ es)).mergeSort entryLE).map (fun e => e.2.1),
           motion_types := ((zip3 (m.keyframes ++ ks) (m.values ++ vs.map Motion._cast)
              (m.motion_types ++ es)).mergeSort entryLE).map (fun e => e.2.2),
           default_value := m.default_value, tupled := true }, none)) := by
  unfold Motion.extend
  rw [if_neg (by omega), if_neg (by simp [h2]), if_neg (by simp [htup])]
  simp only []
  rw [hmapM]

theorem motion_extend_none_eq (m : Motion) (ks : List ℚ) (vs : List Val) :
    m.extend ks vs none = m.extend ks vs (some (List.replicate ks.length "linear")) := by
  unfold Motion.extend
  simp

theorem motion_extend_success_tupled_some (m : Motion) (ks : List ℚ) (vs : List Val)
    (l : List String) (hsucc : (m.extend ks vs (some l)).2 = none) :
    (m.extend ks vs (some l)).1.tupled = true := by
  by_cases h1 : ks.length = vs.length
  · by_cases h2 : ks.length = l.length
    · by_cases htup : m.tupled = true
      · rw [motion_extend_on_tupled m ks vs (some l) h1 (by simp [h2]) htup] at hsucc
        simp at hsucc
      · have htup' : m.tupled = false := by simpa using htup
        cases hmapM : l.mapM (fun s => List.lookup s motion_types_to_func) with
        | none =>
          rw [motion_extend_keyerror m ks vs l h1 h2 htup' hmapM] at hsucc
          simp at hsucc
        | some es =>
          rw [motion_extend_eq m ks vs l es h1 h2 htup' hmapM] at hsucc ⊢
          by_cases hni : ((zip3 (m.keyframes ++ ks) (m.values ++ vs.map Motion._cast)
              (m.motion_types ++ es)).mergeSort entryLE).isEmpty
          · rw [if_pos hni] at hsucc
            simp at hsucc
          · rw [if_neg hni]
    · rw [motion_extend_assert2 m ks vs l h1 h2] at hsucc
      simp at hsucc
  · rw [motion_extend_assert1 m ks vs _ h1] at hsucc
    simp at hsucc

theorem motion_extend_success_tupled (m : Motion) (ks : List ℚ) (vs : List Val)
    (mts : Option (List String)) (hsucc : (m.extend ks vs mts).2 = none) :
    (m.extend ks vs mts).1.tupled = true := by
  cases mts with
  | none =>
    rw [motion_extend_none_eq] at hsucc ⊢
    exact motion_extend_success_tupled_some m ks vs _ hsucc
  | some l => exact motion_extend_success_tupled_some m ks vs l hsucc

/-! ### Claim theorems about `append` after `extend` and error behavior -/

/-- C4 (code bug): appending with the unregistered easing name `"bounce"`
raises `KeyError`, but the curve is not left unmodified: `keyframes` and
`values` have already been extended by `list.insert` when the registry
lookup fails, while `motion_types` has not, leaving the three sequences
misaligned. -/
theorem motion_append_unknown_easing_mutates :
    ((Motion.init none).append 1 (Val.scalar 2) "bounce").2 = some PyError.keyError ∧
    ((Motion.init none).append 1 (Val.scalar 2) "bounce").1.keyframes = [1] ∧
    ((Motion.init none).append 1 (Val.scalar 2) "bounce").1.values = [Val.scalar 2] ∧
    ((Motion.init none).append 1 (Val.scalar 2) "bounce").1.motion_types = [] := by
  have hb : bisectRight ([] : List ℚ) 1 = 0 := by
    rw [bisectRight_eq_countLE _ _ (by simp [List.sorted_nil])]
    rfl
  refine ⟨?_, ?_, ?_, ?_⟩ <;>
    simp [Motion.append, Motion.init, hb, Motion._cast, List.lookup, motion_types_to_func]

/-- C10: a successful `extend` leaves the three sequences as tuples, after
which every `append` raises `AttributeError` from `tuple.insert` without
modifying the object, and every further `extend` also fails (the length
asserts or `tuple + list`) without modifying the object — so no later call
can un-tuple the curve. -/
theorem motion_append_after_extend_fails (m : Motion)
    (ks : List ℚ) (vs : List Val) (mts : Option (List String))
    (hsucc : (m.extend ks vs mts).2 = none) :
    (m.extend ks vs mts).1.tupled = true ∧
    (∀ (m' : Motion) (k : ℚ) (v : Val) (s : String), m'.tupled = true →
      m'.append k v s = (m', some PyError.attributeError)) ∧
    (∀ (m' : Motion) (ks' : List ℚ) (vs' : List Val) (mts' : Option (List String)),
      m'.tupled = true →
      (m'.extend ks' vs' mts').1 = m' ∧ (m'.extend ks' vs' mts').2 ≠ none) := by
  refine ⟨motion_extend_success_tupled m ks vs mts hsucc, ?_, ?_⟩
  · intro m' k v s h
    simp [Motion.append, h]
  · intro m' ks' vs' mts' h
    by_cases h1 : ks'.length = vs'.length
    · by_cases h2 : mts'.isSome = true ∧ ks'.length ≠ (mts'.getD []).length
      · obtain ⟨hsome, hne⟩ := h2
        obtain ⟨l, rfl⟩ : ∃ l, mts' = some l := by
          cases mts' with
          | none => simp at hsome
          | some l => exact ⟨l, rfl⟩
        rw [motion_extend_assert2 m' ks' vs' l h1 (by simpa using hne)]
        simp
      · rw [motion_extend_on_tupled m' ks' vs' mts' h1 h2 h]
        simp
    · rw [motion_extend_assert1 m' ks' vs' mts' h1]
      simp

/-- Witness for `motion_append_after_extend_fails`: after a successful
one-point `extend`, a valid `append` raises `AttributeError`. -/
theorem motion_append_after_extend_fails_witness :
    ((Motion.init none).extend [1] [Val.scalar 2] none).1.tupled = true ∧
    (((Motion.init none).extend [1] [Val.scalar 2] none).1.append 3 (Val.scalar 4)
        "linear").2 = some PyError.attributeError := by
  have hsucc : ((Motion.init none).extend [1] [Val.scalar 2] none).2 = none := by
    simp [Motion.extend, Motion.init, zip3, Motion._cast, List.lookup,
      motion_types_to_func, List.mergeSort, List.mapM.loop, List.zipWith3]
  have h := motion_append_after_extend_fails (Motion.init none) [1] [Val.scalar 2]
    none hsucc
  exact ⟨h.1, by rw [h.2.1 _ 3 (Val.scalar 4) "linear" h.1]⟩

/-- C9: the blink-state derivation is deterministic and independent of call
history.  With the ambient mutable process state (global RNG, prior calls)
threaded explicitly, `get_eye_state` returns it untouched, two calls from
arbitrary ambient states agree on the frame index, and a repeated sequential
call returns the same frame index. -/
theorem get_eye_state_deterministic {σ : Type} (c : Character)
    (sha : String → ℕ) (mt : ℕ → ℚ) (time : ℚ) (idx : ℤ) (w w' : σ) :
    (c.get_eye_state_run sha mt time idx w).1 =
      (c.get_eye_state_run sha mt time idx w').1 ∧
    (c.get_eye_state_run sha mt time idx w).2 = w ∧
    (c.get_eye_state_run sha mt time idx
        (c.get_eye_state_run sha mt time idx w).2).1 =
      (c.get_eye_state_run sha mt time idx w).1 :=
  ⟨rfl, rfl, rfl⟩

/-! ### The timeline interval lookup (spec-modelled `get_state`) -/


theorem get?_eq_getD {α : Type} (l : List α) (k : ℕ) (h : k < l.length) (d : α) :
    l.get? k = some (l.getD k d) := by
  rw [List.get?_eq_get h, List.get_eq_getElem, List.getD_eq_getElem _ _ h]

theorem findIdx_eq_of_first {α : Type} (l : List α) (p : α → Bool) (i : ℕ)
    (hi : i < l.length) (hpi : p (l.get ⟨i, hi⟩) = true)
    (hj : ∀ (j : ℕ) (hjl : j < l.length), j < i → p (l.get ⟨j, hjl⟩) = false) :
    l.findIdx p = i := by
  induction l generalizing i with
  | nil => simp at hi
  | cons a t ih =>
    cases i with
    | zero =>
      rw [List.findIdx_cons]
      have hpa : p a = true := hpi
      rw [hpa]
      rfl
    | succ i =>
      have hpa : p a = false := hj 0 (by simp) (by omega)
      rw [List.findIdx_cons, hpa]
      have hi' : i < t.length := by simpa using hi
      have hres := ih i hi' hpi
        (fun j hjl hji => hj (j + 1) (by simpa using hjl) (by omega))
      simp [hres]

theorem containsAt_iff (tl : TimelineMixin) (time : ℚ) (i : ℕ)
    (hlen : tl.start_times.length = tl.end_times.length) :
    tl.containsAt i time ↔
      i < tl.start_times.length ∧ tl.start_times.getD i 0 ≤ time ∧
        time < tl.end_times.getD i 0 := by
  constructor
  · rintro ⟨s, e, hs, he, h1, h2⟩
    have hi : i < tl.start_times.length := by
      by_contra hni
      push_neg at hni
      rw [List.get?_eq_none.2 hni] at hs
      exact Option.noConfusion hs
    rw [get?_eq_getD _ _ hi 0] at hs
    rw [get?_eq_getD _ _ (by omega) 0] at he
    injection hs with hs
    injection he with he
    exact ⟨hi, by rw [hs]; exact h1, by rw [he]; exact h2⟩
  · rintro ⟨hi, h1, h2⟩
    exact ⟨_, _, get?_eq_getD _ _ hi 0, get?_eq_getD _ _ (by omega) 0, h1, h2⟩

theorem timeline_chain_le (tl : TimelineMixin)
    (hchain : ∀ k, k + 1 < tl.start_times.length →
      tl.end_times.getD k 0 ≤ tl.start_times.getD (k + 1) 0)
    (hwf : ∀ k, k < tl.start_times.length →
      tl.start_times.getD k 0 < tl.end_times.getD k 0) :
    ∀ (d j : ℕ), j + d + 1 < tl.start_times.length →
      tl.end_times.getD j 0 ≤ tl.start_times.getD (j + d + 1) 0 := by
  intro d
  induction d with
  | zero =>
    intro j hj
    exact hchain j hj
  | succ d ih =>
    intro j hj
    have h1 := ih j (by omega)
    have h2 := hwf (j + d + 1) (by omega)
    have h3 := hchain (j + d + 1) (by omega)
    rw [show j + (d + 1) + 1 = j + d + 1 + 1 from by omega]
    exact le_trans h1 (le_trans (le_of_lt h2) h3)

theorem timeline_end_le_start (tl : TimelineMixin)
    (hchain : ∀ k, k + 1 < tl.start_times.length →
      tl.end_times.getD k 0 ≤ tl.start_times.getD (k + 1) 0)
    (hwf : ∀ k, k < tl.start_times.length →
      tl.start_times.getD k 0 < tl.end_times.getD k 0)
    (j i : ℕ) (hji : j < i) (hi : i < tl.start_times.length) :
    tl.end_times.getD j 0 ≤ tl.start_times.getD i 0 := by
  have h := timeline_chain_le tl hchain hwf (i - j - 1) j (by omega)
  rw [show j + (i - j - 1) + 1 = i from by omega] at h
  exact h

/-- C2: `get_state` (the spec's `resolve`) returns the index of the first
interval, in input order, with `start <= time < end`, and `-1` when no
interval contains `time`; for chained well-formed intervals
(`start[i] < end[i]`, `end[i] <= start[i+1]`) it returns the unique
containing index, and `-1` for a time in the gap between an interval's end
and the next interval's start. -/
theorem get_state_spec (tl : TimelineMixin) (time : ℚ)
    (hlen : tl.start_times.length = tl.end_times.length) :
    ((∀ i, ¬tl.containsAt i time) → tl.get_state time = -1) ∧
    (∀ i : ℕ, tl.containsAt i time → (∀ j, j < i → ¬tl.containsAt j time) →
      tl.get_state time = (i : ℤ)) ∧
    ((∀ k, k + 1 < tl.start_times.length →
        tl.end_times.getD k 0 ≤ tl.start_times.getD (k + 1) 0) →
      (∀ k, k < tl.start_times.length →
        tl.start_times.getD k 0 < tl.end_times.getD k 0) →
      ((∀ i : ℕ, tl.containsAt i time → tl.get_state time = (i : ℤ)) ∧
       (∀ i : ℕ, i + 1 < tl.start_times.length → tl.end_times.getD i 0 ≤ time →
         time < tl.start_times.getD (i + 1) 0 → tl.get_state time = -1))) := by
  have hzlen : (tl.start_times.zip tl.end_times).length = tl.start_times.length := by
    rw [List.length_zip]; omega
  have hpred : ∀ (i : ℕ) (hi : i < (tl.start_times.zip tl.end_times).length),
      ((fun q : ℚ × ℚ => decide (q.1 ≤ time ∧ time < q.2))
          ((tl.start_times.zip tl.end_times).get ⟨i, hi⟩) = true) ↔
        tl.containsAt i time := by
    intro i hi
    rw [List.get_eq_getElem, List.getElem_zip]
    rw [containsAt_iff tl time i hlen]
    simp only [decide_eq_true_eq]
    constructor
    · rintro ⟨h1, h2⟩
      have hi' : i < tl.start_times.length := by omega
      refine ⟨hi', ?_, ?_⟩
      · rw [List.getD_eq_getElem _ _ hi']
        exact h1
      · rw [List.getD_eq_getElem _ _ (by omega : i < tl.end_times.length)]
        exact h2
    · rintro ⟨hi', h1, h2⟩
      constructor
      · rw [List.getD_eq_getElem _ _ hi'] at h1
        exact h1
      · rw [List.getD_eq_getElem _ _ (by omega : i < tl.end_times.length)] at h2
        exact h2
  have hnone : (∀ i, ¬tl.containsAt i time) → tl.get_state time = -1 := by
    intro hno
    have hfind : (tl.start_times.zip tl.end_times).findIdx?
        (fun q => decide (q.1 ≤ time ∧ time < q.2)) = none := by
      rw [List.findIdx?_eq_none_iff]
      intro x hx
      obtain ⟨n, hn⟩ := List.mem_iff_get.1 hx
      cases hb : (fun q : ℚ × ℚ => decide (q.1 ≤ time ∧ time < q.2)) x with
      | false => exact hb
      | true =>
        rw [← hn] at hb
        exact absurd ((hpred n n.isLt).1 hb) (hno n)
    unfold TimelineMixin.get_state
    rw [hfind]
  have hfirst : ∀ i : ℕ, tl.containsAt i time →
      (∀ j, j < i → ¬tl.containsAt j time) → tl.get_state time = (i : ℤ) := by
    intro i hci hfst
    have hi : i < tl.start_times.length := ((containsAt_iff tl time i hlen).1 hci).1
    have hizs : i < (tl.start_times.zip tl.end_times).length := by omega
    have hfind : (tl.start_times.zip tl.end_times).findIdx?
        (fun q => decide (q.1 ≤ time ∧ time < q.2)) = some i := by
      rw [List.findIdx?_eq_some_iff_findIdx_eq]
      refine ⟨hizs, findIdx_eq_of_first _ _ i hizs ((hpred i hizs).2 hci) ?_⟩
      intro j hjl hji
      cases hb : (fun q : ℚ × ℚ => decide (q.1 ≤ time ∧ time < q.2))
          ((tl.start_times.zip tl.end_times).get ⟨j, hjl⟩) with
      | false => exact hb
      | true => exact absurd ((hpred j hjl).1 hb) (hfst j hji)
    unfold TimelineMixin.get_state
    rw [hfind]
  refine ⟨hnone, hfirst, ?_⟩
  intro hchain hwf
  constructor
  · intro i hci
    refine hfirst i hci ?_
    intro j hji hcj
    have h1 := (containsAt_iff tl time i hlen).1 hci
    have h2 := (containsAt_iff tl time j hlen).1 hcj
    have hle := timeline_end_le_start tl hchain hwf j i hji h1.1
    have h3 := h2.2.2
    have h4 := h1.2.1
    linarith
  · intro i hip1 hle hlt
    refine hnone ?_
    intro j hcj
    have hj := (containsAt_iff tl time j hlen).1 hcj
    rcases lt_trichotomy j i with hji | rfl | hij
    · have e1 := timeline_end_le_start tl hchain hwf j i hji (by omega)
      have e2 := hwf i (by omega)
      have e4 := hj.2.2
      linarith
    · have := hj.2.2
      linarith
    · have hj1 : i + 1 ≤ j := hij
      have hstart : tl.start_times.getD (i + 1) 0 ≤ tl.start_times.getD j 0 := by
        rcases eq_or_lt_of_le hj1 with heq | hj2
        · rw [heq]
        · have e1 := hwf (i + 1) (by omega)
          have e2 := timeline_end_le_start tl hchain hwf (i + 1) j hj2 hj.1
          linarith
      have := hj.2.1
      linarith

theorem get_state_spec_witness :
    (TimelineMixin.mk [0, 2] [1, 3]).get_state (1/2) = 0 ∧
    (TimelineMixin.mk [0, 2] [1, 3]).get_state (3/2) = -1 := by
  have hchain : ∀ k, k + 1 < (TimelineMixin.mk [0, 2] [1, 3]).start_times.length →
      (TimelineMixin.mk [0, 2] [1, 3]).end_times.getD k 0 ≤
        (TimelineMixin.mk [0, 2] [1, 3]).start_times.getD (k + 1) 0 := by
    intro k hk
    have hk0 : k = 0 := by
      simp only [TimelineMixin.mk, List.length_cons, List.length_nil] at hk
      omega
    subst hk0
    norm_num [List.getD]
  have hwf : ∀ k, k < (TimelineMixin.mk [0, 2] [1, 3]).start_times.length →
      (TimelineMixin.mk [0, 2] [1, 3]).start_times.getD k 0 <
        (TimelineMixin.mk [0, 2] [1, 3]).end_times.getD k 0 := by
    intro k hk
    have hk01 : k = 0 ∨ k = 1 := by
      simp only [TimelineMixin.mk, List.length_cons, List.length_nil] at hk
      omega
    rcases hk01 with rfl | rfl <;> norm_num [List.getD]
  constructor
  · refine ((get_state_spec (TimelineMixin.mk [0, 2] [1, 3]) (1/2) rfl).2.2
      hchain hwf).1 0 ?_
    rw [containsAt_iff _ _ _ rfl]
    norm_num [List.getD]
  · exact ((get_state_spec (TimelineMixin.mk [0, 2] [1, 3]) (3/2) rfl).2.2
      hchain hwf).2 0 (by norm_num) (by norm_num [List.getD]) (by norm_num [List.getD])

/-! ### Lemmas about the zipped-triple view -/

theorem zip3_nil2 (vs : List Val) (fs : List Easing) : zip3 [] vs fs = [] := rfl

theorem zip3_cons (k : ℚ) (v : Val) (f : Easing) (ks : List ℚ) (vs : List Val)
    (fs : List Easing) :
    zip3 (k :: ks) (v :: vs) (f :: fs) = (k, v, f) :: zip3 ks vs fs := rfl

theorem zip3_map_fst (ks : List ℚ) (vs : List Val) (fs : List Easing)
    (hv : vs.length = ks.length) (hf : fs.length = ks.length) :
    (zip3 ks vs fs).map (fun e => e.1) = ks := by
  induction ks generalizing vs fs with
  | nil => rfl
  | cons k ks ih =>
    cases vs with
    | nil => simp at hv
    | cons v vs =>
      cases fs with
      | nil => simp at hf
      | cons f fs =>
        rw [zip3_cons, List.map_cons, ih vs fs (by simpa using hv) (by simpa using hf)]

theorem zip3_map_snd (ks : List ℚ) (vs : List Val) (fs : List Easing)
    (hv : vs.length = ks.length) (hf : fs.length = ks.length) :
    (zip3 ks vs fs).map (fun e => e.2.1) = vs := by
  induction ks generalizing vs fs with
  | nil =>
    cases vs with
    | nil => rfl
    | cons v vs => simp at hv
  | cons k ks ih =>
    cases vs with
    | nil => simp at hv
    | cons v vs =>
      cases fs with
      | nil => simp at hf
      | cons f fs =>
        rw [zip3_cons, List.map_cons, ih vs fs (by simpa using hv) (by simpa using hf)]

theorem zip3_map_thd (ks : List ℚ) (vs : List Val) (fs : List Easing)
    (hv : vs.length = ks.length) (hf : fs.length = ks.length) :
    (zip3 ks vs fs).map (fun e => e.2.2) = fs := by
  induction ks generalizing vs fs with
  | nil =>
    cases fs with
    | nil => rfl
    | cons f fs => simp at hf
  | cons k ks ih =>
    cases vs with
    | nil => simp at hv
    | cons v vs =>
      cases fs with
      | nil => simp at hf
      | cons f fs =>
        rw [zip3_cons, List.map_cons, ih vs fs (by simpa using hv) (by simpa using hf)]

theorem zip3_proj_id (zs : List (ℚ × Val × Easing)) :
    zip3 (zs.map (fun e => e.1)) (zs.map (fun e => e.2.1)) (zs.map (fun e => e.2.2)) = zs := by
  induction zs with
  | nil => rfl
  | cons z zs ih => rw [List.map_cons, List.map_cons, List.map_cons, zip3_cons, ih]

theorem zip3_length (ks : List ℚ) (vs : List Val) (fs : List Easing)
    (hv : vs.length = ks.length) (hf : fs.length = ks.length) :
    (zip3 ks vs fs).length = ks.length := by
  have := congrArg List.length (zip3_map_fst ks vs fs hv hf)
  simpa using this

theorem zip3_append (ks ks' : List ℚ) (vs vs' : List Val) (fs fs' : List Easing)
    (hv : vs.length = ks.length) (hf : fs.length = ks.length) :
    zip3 (ks ++ ks') (vs ++ vs') (fs ++ fs') = zip3 ks vs fs ++ zip3 ks' vs' fs' := by
  induction ks generalizing vs fs with
  | nil =>
    cases vs with
    | nil =>
      cases fs with
      | nil => rfl
      | cons f fs => simp at hf
    | cons v vs => simp at hv
  | cons k ks ih =>
    cases vs with
    | nil => simp at hv
    | cons v vs =>
      cases fs with
      | nil => simp at hf
      | cons f fs =>
        simp only [List.cons_append, zip3_cons, List.map_cons]
        rw [ih vs fs (by simpa using hv) (by simpa using hf)]

theorem zip3_map3 {α : Type} (l : List α) (f : α → ℚ) (g : α → Val) (h : α → Easing) :
    zip3 (l.map f) (l.map g) (l.map h) = l.map (fun x => (f x, g x, h x)) := by
  induction l with
  | nil => rfl
  | cons a l ih =>
    simp only [List.map_cons, zip3_cons, ih]

theorem zip3_insertIdx (i : ℕ) (k : ℚ) (v : Val) (f : Easing)
    (ks : List ℚ) (vs : List Val) (fs : List Easing)
    (hv : vs.length = ks.length) (hf : fs.length = ks.length) (hi : i ≤ ks.length) :
    zip3 (List.insertIdx i k ks) (List.insertIdx i v vs) (List.insertIdx i f fs) =
      List.insertIdx i (k, v, f) (zip3 ks vs fs) := by
  induction i generalizing ks vs fs with
  | zero => rfl
  | succ i ih =>
    cases ks with
    | nil => simp at hi
    | cons k0 ks =>
      cases vs with
      | nil => simp at hv
      | cons v0 vs =>
        cases fs with
        | nil => simp at hf
        | cons f0 fs =>
          simp only [List.insertIdx_succ_cons, zip3_cons]
          rw [ih ks vs fs (by simpa using hv) (by simpa using hf) (by simpa using hi)]

/-! ### The order used by `sorted` on zipped triples -/

theorem Val.leB_trans (a b c : Val) (h1 : Val.leB a b = true) (h2 : Val.leB b c = true) :
    Val.leB a c = true := by
  cases a with
  | scalar x =>
    cases c with
    | pair _ _ => simp [Val.leB]
    | scalar z =>
      cases b with
      | pair _ _ => simp [Val.leB] at h2
      | scalar y =>
        simp only [Val.leB, decide_eq_true_eq] at h1 h2 ⊢
        exact le_trans h1 h2
  | pair x1 x2 =>
    cases b with
    | scalar _ => simp [Val.leB] at h1
    | pair y1 y2 =>
      cases c with
      | scalar _ => simp [Val.leB] at h2
      | pair z1 z2 =>
        simp only [Val.leB, Bool.or_eq_true, Bool.and_eq_true, decide_eq_true_eq]
          at h1 h2 ⊢
        rcases h1 with h1 | ⟨e1, h1⟩
        · rcases h2 with h2 | ⟨e2, h2⟩
          · exact Or.inl (lt_trans h1 h2)
          · exact Or.inl (e2 ▸ h1)
        · rcases h2 with h2 | ⟨e2, h2⟩
          · exact Or.inl (e1 ▸ h2)
          · exact Or.inr ⟨e1.trans e2, le_trans h1 h2⟩

theorem Val.leB_total (a b : Val) : (Val.leB a b || Val.leB b a) = true := by
  cases a with
  | scalar x =>
    cases b with
    | scalar y =>
      simp only [Val.leB, Bool.or_eq_true, decide_eq_true_eq]
      exact le_total x y
    | pair _ _ => simp [Val.leB]
  | pair x1 x2 =>
    cases b with
    | scalar _ => simp [Val.leB]
    | pair y1 y2 =>
      simp only [Val.leB, Bool.or_eq_true, Bool.and_eq_true, decide_eq_true_eq]
      rcases lt_trichotomy x1 y1 with h | h | h
      · exact Or.inl (Or.inl h)
      · rcases le_total x2 y2 with h2 | h2
        · exact Or.inl (Or.inr ⟨h, h2⟩)
        · exact Or.inr (Or.inr ⟨h.symm, h2⟩)
      · exact Or.inr (Or.inl h)

theorem entryLE_trans (a b c : ℚ × Val × Easing)
    (h1 : entryLE a b = true) (h2 : entryLE b c = true) : entryLE a c = true := by
  simp only [entryLE, Bool.or_eq_true, Bool.and_eq_true, decide_eq_true_eq] at h1 h2 ⊢
  rcases h1 with h1 | ⟨e1, h1⟩ <;> rcases h2 with h2 | ⟨e2, h2⟩
  · exact Or.inl (lt_trans h1 h2)
  · exact Or.inl (e2 ▸ h1)
  · exact Or.inl (e1 ▸ h2)
  · exact Or.inr ⟨e1.trans e2, Val.leB_trans _ _ _ h1 h2⟩

theorem entryLE_total (a b : ℚ × Val × Easing) : (entryLE a b || entryLE b a) = true := by
  simp only [entryLE, Bool.or_eq_true, Bool.and_eq_true, decide_eq_true_eq]
  rcases lt_trichotomy a.1 b.1 with h | h | h
  · exact Or.inl (Or.inl h)
  · have := Val.leB_total a.2.1 b.2.1
    simp only [Bool.or_eq_true] at this
    rcases this with h2 | h2
    · exact Or.inl (Or.inr ⟨h, h2⟩)
    · exact Or.inr (Or.inr ⟨h.symm, h2⟩)
  · exact Or.inr (Or.inl h)

theorem entryLE_time_le (a b : ℚ × Val × Easing) (h : entryLE a b = true) :
    a.1 ≤ b.1 := by
  simp only [entryLE, Bool.or_eq_true, Bool.and_eq_true, decide_eq_true_eq] at h
  rcases h with h | ⟨e, _⟩
  · exact le_of_lt h
  · exact le_of_eq e

/-! ### Sorted insertion at the `bisect_right` position -/

theorem sorted_insertIdx_key {α : Type} (κ : α → ℚ) (l : List α)
    (hs : List.Sorted (fun a b => κ a ≤ κ b) l) (x : α) :
    List.Sorted (fun a b => κ a ≤ κ b)
      (List.insertIdx (l.countP (fun e => decide (κ e ≤ κ x))) x l) := by
  induction l with
  | nil => simp
  | cons e es ih =>
    rw [List.sorted_cons] at hs
    obtain ⟨he, hes⟩ := hs
    by_cases hex : κ e ≤ κ x
    · rw [List.countP_cons, if_pos (by simpa using hex)]
      rw [show es.countP (fun e => decide (κ e ≤ κ x)) + 1 =
        (es.countP (fun e => decide (κ e ≤ κ x))).succ from rfl]
      rw [List.insertIdx_succ_cons]
      rw [List.sorted_cons]
      constructor
      · intro b hb
        have hmem := (List.perm_insertIdx x es
          (le_trans (List.countP_le_length _) le_rfl)).mem_iff.1 hb
        rcases List.mem_cons.1 hmem with rfl | hbm
        · exact hex
        · exact he b hbm
      · exact ih hes
    · have hcnt : es.countP (fun e => decide (κ e ≤ κ x)) = 0 := by
        rw [List.countP_eq_zero]
        intro y hy
        simp only [decide_eq_true_eq]
        intro hyx
        exact hex (le_trans (he y hy) hyx)
      rw [List.countP_cons, if_neg (by simpa using hex), hcnt]
      rw [show (0 : ℕ) + 0 = 0 from rfl]
      rw [List.insertIdx_zero]
      rw [List.sorted_cons]
      constructor
      · intro b hb
        rcases List.mem_cons.1 hb with rfl | hbm
        · exact le_of_lt (lt_of_not_le hex)
        · exact le_trans (le_of_lt (lt_of_not_le hex)) (he b hbm)
      · rw [List.sorted_cons]
        exact ⟨he, hes⟩

theorem length_of_mapM_some {α β : Type} (f : α → Option β) :
    ∀ (l : List α) (es : List β), l.mapM f = some es → es.length = l.length := by
  intro l
  induction l with
  | nil =>
    intro es h
    simp only [List.mapM_nil] at h
    injection h with h
    rw [← h]
    rfl
  | cons a t ih =>
    intro es h
    rw [List.mapM_cons] at h
    cases hfa : f a with
    | none => rw [hfa] at h; simp at h
    | some b =>
      rw [hfa] at h
      cases hft : t.mapM f with
      | none => rw [hft] at h; simp at h
      | some bs =>
        rw [hft] at h
        simp only [Option.bind_eq_bind, Option.some_bind] at h
        injection h with h
        rw [← h]
        simp [ih bs hft]

theorem mapM_lookup_of_registered (names : List String)
    (h : ∀ s ∈ names, (motion_types_to_func.lookup s).isSome = true) :
    names.mapM (fun s => motion_types_to_func.lookup s) =
      some (names.map (fun s => (motion_types_to_func.lookup s).getD Easing.linear)) := by
  induction names with
  | nil => rfl
  | cons a t ih =>
    rw [List.mapM_cons]
    have ha := h a (List.mem_cons_self a t)
    obtain ⟨f, hf⟩ := Option.isSome_iff_exists.1 ha
    rw [hf, ih (fun s hs => h s (List.mem_cons_of_mem a hs))]
    simp [hf]

theorem mergeSort_isEmpty_eq {α : Type} (le : α → α → Bool) (l : List α) :
    (l.mergeSort le).isEmpty = l.isEmpty := by
  have hlen := (List.mergeSort_perm l le).length_eq
  cases hm : l.mergeSort le with
  | nil =>
    cases l with
    | nil => rfl
    | cons a t =>
      rw [hm] at hlen
      simp at hlen
  | cons b u =>
    cases l with
    | nil =>
      rw [hm] at hlen
      simp at hlen
    | cons a t => rfl

/-! ### Success characterization of `append` -/

theorem motion_append_eq (m : Motion) (k : ℚ) (v : Val) (s : String) (f : Easing)
    (htup : m.tupled = false) (hlook : motion_types_to_func.lookup s = some f) :
    m.append k v s =
      ({ keyframes := List.insertIdx (bisectRight m.keyframes k) k m.keyframes,
         values := List.insertIdx (bisectRight m.keyframes k) (Motion._cast v) m.values,
         motion_types := List.insertIdx (bisectRight m.keyframes k) f m.motion_types,
         default_value := m.default_value, tupled := m.tupled }, none) := by
  unfold Motion.append
  rw [if_neg (by simp [htup])]
  simp only []
  rw [hlook]

theorem motion_append_success_cases (m : Motion) (k : ℚ) (v : Val) (s : String)
    (hsucc : (m.append k v s).2 = none) :
    m.tupled = false ∧ ∃ f, motion_types_to_func.lookup s = some f := by
  by_cases htup : m.tupled = true
  · unfold Motion.append at hsucc
    rw [if_pos (by simp [htup])] at hsucc
    simp at hsucc
  · have htup' : m.tupled = false := by simpa using htup
    refine ⟨htup', ?_⟩
    cases hlook : motion_types_to_func.lookup s with
    | some f => exact ⟨f, rfl⟩
    | none =>
      unfold Motion.append at hsucc
      rw [if_neg (by simp [htup'])] at hsucc
      simp only [] at hsucc
      rw [hlook] at hsucc
      simp at hsucc

theorem motion_append_success_spec (m : Motion) (k : ℚ) (v : Val) (s : String)
    (f : Easing) (htup : m.tupled = false) (ha : m.Aligned) (hs : m.SortedKeys)
    (hlook : motion_types_to_func.lookup s = some f) :
    (m.append k v s).2 = none ∧
    (m.append k v s).1.tupled = false ∧
    (m.append k v s).1.Aligned ∧
    (m.append k v s).1.SortedKeys ∧
    (m.append k v s).1.entries.Perm ((k, Motion._cast v, f) :: m.entries) ∧
    (m.append k v s).1.default_value = m.default_value := by
  have hb : bisectRight m.keyframes k = countLE m.keyframes k :=
    bisectRight_eq_countLE _ _ hs
  have hble : bisectRight m.keyframes k ≤ m.keyframes.length := by
    rw [hb]
    exact countLE_le_length _ _
  have hov : m.values.length = m.keyframes.length := ha.1
  have hom : m.motion_types.length = m.keyframes.length := ha.2
  rw [motion_append_eq m k v s f htup hlook]
  have hE : (Motion.mk (List.insertIdx (bisectRight m.keyframes k) k m.keyframes)
      (List.insertIdx (bisectRight m.keyframes k) (Motion._cast v) m.values)
      (List.insertIdx (bisectRight m.keyframes k) f m.motion_types)
      m.default_value m.tupled).entries =
      List.insertIdx (bisectRight m.keyframes k) (k, Motion._cast v, f) m.entries := by
    show zip3 _ _ _ = _
    exact zip3_insertIdx _ _ _ _ _ _ _ hov hom hble
  refine ⟨rfl, htup, ?_, ?_, ?_, rfl⟩
  · constructor
    · show (List.insertIdx _ (Motion._cast v) m.values).length =
        (List.insertIdx _ k m.keyframes).length
      rw [List.length_insertIdx _ _ (by omega), List.length_insertIdx _ _ hble]
      omega
    · show (List.insertIdx _ f m.motion_types).length =
        (List.insertIdx _ k m.keyframes).length
      rw [List.length_insertIdx _ _ (by omega), List.length_insertIdx _ _ hble]
      omega
  · show List.Sorted (· ≤ ·) (List.insertIdx (bisectRight m.keyframes k) k m.keyframes)
    rw [hb]
    exact sorted_insertIdx_key (fun q => q) m.keyframes hs k
  · rw [hE]
    refine List.perm_insertIdx _ _ ?_
    have : m.entries.length = m.keyframes.length := zip3_length _ _ _ hov hom
    omega

/-! ### Invariants preserved by successful `extend` -/

theorem motion_extend_success_invariants_some (m : Motion) (ks : List ℚ)
    (vs : List Val) (l : List String)
    (hsucc : (m.extend ks vs (some l)).2 = none) :
    (m.extend ks vs (some l)).1.SortedKeys ∧ (m.extend ks vs (some l)).1.Aligned := by
  by_cases h1 : ks.length = vs.length
  · by_cases h2 : ks.length = l.length
    · by_cases htup : m.tupled = true
      · rw [motion_extend_on_tupled m ks vs (some l) h1 (by simp [h2]) htup] at hsucc
        simp at hsucc
      · have htup' : m.tupled = false := by simpa using htup
        cases hmapM : l.mapM (fun s => List.lookup s motion_types_to_func) with
        | none =>
          rw [motion_extend_keyerror m ks vs l h1 h2 htup' hmapM] at hsucc
          simp at hsucc
        | some es =>
          rw [motion_extend_eq m ks vs l es h1 h2 htup' hmapM] at hsucc ⊢
          by_cases hni : ((zip3 (m.keyframes ++ ks) (m.values ++ vs.map Motion._cast)
              (m.motion_types ++ es)).mergeSort entryLE).isEmpty
          · rw [if_pos hni] at hsucc
            simp at hsucc
          · rw [if_neg hni]
            have hp := List.sorted_mergeSort entryLE_trans entryLE_total
              (zip3 (m.keyframes ++ ks) (m.values ++ vs.map Motion._cast)
                (m.motion_types ++ es))
            constructor
            · exact List.Pairwise.map _ (fun a b hab => entryLE_time_le a b hab) hp
            · constructor <;> simp
    · rw [motion_extend_assert2 m ks vs l h1 h2] at hsucc
      simp at hsucc
  · rw [motion_extend_assert1 m ks vs _ h1] at hsucc
    simp at hsucc

theorem motion_extend_success_invariants (m : Motion) (ks : List ℚ) (vs : List Val)
    (mts : Option (List String)) (hsucc : (m.extend ks vs mts).2 = none) :
    (m.extend ks vs mts).1.SortedKeys ∧ (m.extend ks vs mts).1.Aligned := by
  cases mts with
  | none =>
    rw [motion_extend_none_eq] at hsucc ⊢
    exact motion_extend_success_invariants_some m ks vs _ hsucc
  | some l => exact motion_extend_success_invariants_some m ks vs l hsucc

/-- C7: on a sorted, aligned curve, every successful `append` and every
successful `extend` preserves the invariant: the keyframes remain sorted
ascending and the three sequences keep equal lengths. -/
theorem motion_mutations_preserve_invariants (m : Motion)
    (hs : m.SortedKeys) (ha : m.Aligned) :
    (∀ (k : ℚ) (v : Val) (s : String), (m.append k v s).2 = none →
      (m.append k v s).1.SortedKeys ∧ (m.append k v s).1.Aligned) ∧
    (∀ (ks : List ℚ) (vs : List Val) (mts : Option (List String)),
      (m.extend ks vs mts).2 = none →
      (m.extend ks vs mts).1.SortedKeys ∧ (m.extend ks vs mts).1.Aligned) := by
  constructor
  · intro k v s hsucc
    obtain ⟨htup, f, hlook⟩ := motion_append_success_cases m k v s hsucc
    have h := motion_append_success_spec m k v s f htup ha hs hlook
    exact ⟨h.2.2.2.1, h.2.2.1⟩
  · intro ks vs mts hsucc
    exact motion_extend_success_invariants m ks vs mts hsucc

theorem motion_mutations_preserve_invariants_witness :
    ((Motion.mk [1, 3] [Val.scalar 2, Val.scalar 4] [Easing.linear, Easing.linear]
        none false).append 2 (Val.scalar 9) "linear").1.SortedKeys ∧
    ((Motion.mk [1, 3] [Val.scalar 2, Val.scalar 4] [Easing.linear, Easing.linear]
        none false).append 2 (Val.scalar 9) "linear").1.Aligned ∧
    ((Motion.mk [1, 3] [Val.scalar 2, Val.scalar 4] [Easing.linear, Easing.linear]
        none false).extend [0] [Val.scalar 1] none).1.SortedKeys ∧
    ((Motion.mk [1, 3] [Val.scalar 2, Val.scalar 4] [Easing.linear, Easing.linear]
        none false).extend [0] [Val.scalar 1] none).1.Aligned := by
  have h := motion_mutations_preserve_invariants
    (Motion.mk [1, 3] [Val.scalar 2, Val.scalar 4] [Easing.linear, Easing.linear]
      none false)
    (by norm_num [Motion.SortedKeys, List.sorted_cons]) ⟨rfl, rfl⟩
  have h1 := h.1 2 (Val.scalar 9) "linear"
    (by simp [Motion.append, List.lookup, motion_types_to_func])
  have h2 := h.2 [0] [Val.scalar 1] none (by
    rw [motion_extend_none_eq]
    rw [motion_extend_eq _ _ _ _ [Easing.linear] rfl rfl rfl (by rfl)]
    rw [if_neg (by rw [mergeSort_isEmpty_eq]; simp [zip3, List.zipWith3])])
  exact ⟨h1.1, h1.2, h2.1, h2.2⟩

/-! ### The tie-break order of `extend` -/

/-- C5 counterexample: a curve holding keyframe `(1.0, 5.0)` extended with the
new keyframe `(1.0, 2.0)` ends with the NEW entry first: `sorted` compares
the zipped `(time, value, func)` tuples lexicographically, so a tie in time
is broken by the value order (2.0 < 5.0), not by old-before-new. -/
theorem motion_extend_tie_broken_by_value :
    ((Motion.mk [1] [Val.scalar 5] [Easing.linear] none false).extend
        [1] [Val.scalar 2] (some ["linear"])).2 = none ∧
    ((Motion.mk [1] [Val.scalar 5] [Easing.linear] none false).extend
        [1] [Val.scalar 2] (some ["linear"])).1.keyframes = [1, 1] ∧
    ((Motion.mk [1] [Val.scalar 5] [Easing.linear] none false).extend
        [1] [Val.scalar 2] (some ["linear"])).1.values =
      [Val.scalar 2, Val.scalar 5] ∧
    ¬((Motion.mk [1] [Val.scalar 5] [Easing.linear] none false).extend
        [1] [Val.scalar 2] (some ["linear"])).1.values =
      [Val.scalar 5, Val.scalar 2] := by
  rw [motion_extend_eq (Motion.mk [1] [Val.scalar 5] [Easing.linear] none false)
    [1] [Val.scalar 2] ["linear"] [Easing.linear] rfl rfl rfl (by rfl)]
  have hms : (zip3 ([1] ++ [1]) ([Val.scalar 5] ++ [Val.scalar 2].map Motion._cast)
      ([Easing.linear] ++ [Easing.linear])).mergeSort entryLE =
      [((1 : ℚ), Val.scalar 2, Easing.linear), ((1 : ℚ), Val.scalar 5, Easing.linear)] := by
    show List.mergeSort [((1 : ℚ), Val.scalar 5, Easing.linear),
      ((1 : ℚ), Val.scalar 2, Easing.linear)] entryLE = _
    simp only [List.mergeSort, List.splitInTwo, List.splitAt, List.splitAt.go]
    simp
    rw [List.cons_merge_cons]
    norm_num [entryLE, Val.leB]
  rw [hms]
  rw [if_neg (by simp)]
  refine ⟨rfl, rfl, rfl, by simp⟩

/-- C5 (amended): a successful `extend` re-sorts the concatenated
old-then-new entry list by the lexicographic order on the zipped tuples:
primarily by time, with ties in time ordered by value; the underlying sort
is stable, so an entry keeps its old-before-new position only when both time
and value compare equal.  The hypothesis `hsafe` restricts the statement to
inputs on which Python's `sorted` is total: whenever two entries share a
time, their values have the same shape, and if the values are also equal
their easing functions are the same registry object.  Outside `hsafe` —
equal time with a float value against a 2-tuple value, or equal time and
value with two distinct function objects — CPython's tuple comparison
reaches an unordered pair and `sorted` raises `TypeError`, a path the total
`entryLE`/`Val.leB` order deliberately does not reproduce; this theorem
therefore asserts nothing about those calls. -/
theorem motion_extend_sort_order (m : Motion) (ks : List ℚ) (vs : List Val)
    (l : List String) (es : List Easing)
    (h1 : ks.length = vs.length) (h2 : ks.length = l.length)
    (htup : m.tupled = false) (ha : m.Aligned)
    (hmapM : l.mapM (fun s => motion_types_to_func.lookup s) = some es)
    (hne : m.keyframes.length + ks.length ≠ 0)
    (hsafe : ∀ a ∈ m.entries ++ zip3 ks (vs.map Motion._cast) es,
      ∀ b ∈ m.entries ++ zip3 ks (vs.map Motion._cast) es, a.1 = b.1 →
        a.2.1.isPair = b.2.1.isPair ∧ (a.2.1 = b.2.1 → a.2.2 = b.2.2)) :
    (m.extend ks vs (some l)).2 = none ∧
    (m.extend ks vs (some l)).1.entries =
      (m.entries ++ zip3 ks (vs.map Motion._cast) es).mergeSort entryLE ∧
    List.Pairwise (fun a b => entryLE a b = true) (m.extend ks vs (some l)).1.entries ∧
    (m.extend ks vs (some l)).1.SortedKeys ∧
    (∀ a b : ℚ × Val × Easing, entryLE a b = true →
      List.Sublist [a, b] (m.entries ++ zip3 ks (vs.map Motion._cast) es) →
      List.Sublist [a, b] (m.extend ks vs (some l)).1.entries) := by
  have hes : es.length = l.length := length_of_mapM_some _ l es hmapM
  have hvsc : (vs.map Motion._cast).length = ks.length := by
    rw [List.length_map]
    omega
  have hesk : es.length = ks.length := by omega
  have hzap : zip3 (m.keyframes ++ ks) (m.values ++ vs.map Motion._cast)
      (m.motion_types ++ es) = m.entries ++ zip3 ks (vs.map Motion._cast) es := by
    rw [zip3_append _ _ _ _ _ _ ha.1 ha.2]
    rfl
  have hmel : m.entries.length = m.keyframes.length :=
    zip3_length m.keyframes m.values m.motion_types ha.1 ha.2
  have hlen : (m.entries ++ zip3 ks (vs.map Motion._cast) es).length ≠ 0 := by
    rw [List.length_append, zip3_length _ _ _ hvsc hesk, hmel]
    omega
  rw [motion_extend_eq m ks vs l es h1 h2 htup hmapM, hzap]
  have hni : ((m.entries ++ zip3 ks (vs.map Motion._cast) es).mergeSort
      entryLE).isEmpty = false := by
    rw [mergeSort_isEmpty_eq]
    cases hc : m.entries ++ zip3 ks (vs.map Motion._cast) es with
    | nil =>
      rw [hc] at hlen
      simp at hlen
    | cons x xs => rfl
  rw [if_neg (by simp [hni])]
  have hE : (Motion.mk
      (((m.entries ++ zip3 ks (vs.map Motion._cast) es).mergeSort entryLE).map
        (fun e => e.1))
      (((m.entries ++ zip3 ks (vs.map Motion._cast) es).mergeSort entryLE).map
        (fun e => e.2.1))
      (((m.entries ++ zip3 ks (vs.map Motion._cast) es).mergeSort entryLE).map
        (fun e => e.2.2))
      m.default_value true).entries =
      (m.entries ++ zip3 ks (vs.map Motion._cast) es).mergeSort entryLE := by
    show zip3 _ _ _ = _
    exact zip3_proj_id _
  have hsorted := List.sorted_mergeSort entryLE_trans entryLE_total
    (m.entries ++ zip3 ks (vs.map Motion._cast) es)
  refine ⟨rfl, hE, ?_, ?_, ?_⟩
  · rw [hE]
    exact hsorted
  · exact List.Pairwise.map _ (fun a b hab => entryLE_time_le a b hab) hsorted
  · intro a b hab hsub
    rw [hE]
    have hpair : List.Pairwise (fun x y => entryLE x y = true) [a, b] := by
      simp [hab]
    exact List.sublist_mergeSort entryLE_trans entryLE_total hpair hsub

/-- Witness for `motion_extend_sort_order` at the concrete tie input. -/
theorem motion_extend_sort_order_witness :
    ((Motion.mk [1] [Val.scalar 5] [Easing.linear] none false).extend
        [1] [Val.scalar 2] (some ["linear"])).2 = none ∧
    ((Motion.mk [1] [Val.scalar 5] [Easing.linear] none false).extend
        [1] [Val.scalar 2] (some ["linear"])).1.entries =
      ((Motion.mk [1] [Val.scalar 5] [Easing.linear] none false).entries ++
        zip3 [1] ([Val.scalar 2].map Motion._cast) [Easing.linear]).mergeSort
          entryLE ∧
    ((Motion.mk [1] [Val.scalar 5] [Easing.linear] none false).extend
        [1] [Val.scalar 2] (some ["linear"])).1.SortedKeys := by
  have h := motion_extend_sort_order
    (Motion.mk [1] [Val.scalar 5] [Easing.linear] none false)
    [1] [Val.scalar 2] ["linear"] [Easing.linear] rfl rfl rfl ⟨rfl, rfl⟩ (by rfl)
    (by norm_num) (by decide)
  exact ⟨h.1, h.2.1, h.2.2.2.1⟩

/-! ### Extend versus a sequence of appends -/

theorem motion_call_fields (m m' : Motion) (hk : m.keyframes = m'.keyframes)
    (hv : m.values = m'.values) (hmt : m.motion_types = m'.motion_types)
    (hd : m.default_value = m'.default_value) (q : ℚ) : m.call q = m'.call q := by
  cases m with
  | mk ks vs ms dv b =>
    cases m' with
    | mk ks' vs' ms' dv' b' =>
      have h1 : ks = ks' := hk
      have h2 : vs = vs' := hv
      have h3 : ms = ms' := hmt
      have h4 : dv = dv' := hd
      subst h1
      subst h2
      subst h3
      subst h4
      rfl

theorem appendAll_spec (xs : List (ℚ × Val × String)) :
    ∀ (m : Motion), m.tupled = false → m.Aligned → m.SortedKeys →
      (∀ x ∈ xs, (motion_types_to_func.lookup x.2.2).isSome = true) →
      (appendAll m xs).2 = none ∧
      (appendAll m xs).1.tupled = false ∧
      (appendAll m xs).1.Aligned ∧
      (appendAll m xs).1.SortedKeys ∧
      (appendAll m xs).1.entries.Perm (m.entries ++ xs.map entryOf) ∧
      (appendAll m xs).1.default_value = m.default_value := by
  induction xs with
  | nil =>
    intro m htup ha hs _
    refine ⟨rfl, htup, ha, hs, ?_, rfl⟩
    show m.entries.Perm (m.entries ++ List.map entryOf [])
    simp
  | cons x xs ih =>
    intro m htup ha hs hreg
    obtain ⟨f, hf⟩ := Option.isSome_iff_exists.1 (hreg x (List.mem_cons_self x xs))
    have hstep := motion_append_success_spec m x.1 x.2.1 x.2.2 f htup ha hs hf
    have hpair : m.append x.1 x.2.1 x.2.2 = ((m.append x.1 x.2.1 x.2.2).1, none) :=
      Prod.ext rfl hstep.1
    have hunf : appendAll m (x :: xs) = appendAll (m.append x.1 x.2.1 x.2.2).1 xs := by
      rw [appendAll, hpair]
    have hrec := ih (m.append x.1 x.2.1 x.2.2).1 hstep.2.1 hstep.2.2.1 hstep.2.2.2.1
      (fun y hy => hreg y (List.mem_cons_of_mem x hy))
    rw [hunf]
    refine ⟨hrec.1, hrec.2.1, hrec.2.2.1, hrec.2.2.2.1, ?_, ?_⟩
    · have hent : entryOf x = (x.1, Motion._cast x.2.1, f) := by
        simp [entryOf, hf]
      have e1 := hrec.2.2.2.2.1
      have e2 := (hstep.2.2.2.2.1).append_right (xs.map entryOf)
      have e3 : List.Perm (((x.1, Motion._cast x.2.1, f) :: m.entries) ++ xs.map entryOf)
          (m.entries ++ (x :: xs).map entryOf) := by
        rw [List.map_cons, hent]
        exact List.perm_middle.symm
      exact (e1.trans e2).trans e3
    · rw [hrec.2.2.2.2.2, hstep.2.2.2.2.2]

/-- C6: for a nonempty set of keyframe triples with pairwise distinct times
and registered easing names, building a curve by a single bulk `extend` and
building it by individual `append` calls in any order produce states that
evaluate identically at every query time. -/
theorem motion_extend_matches_appends (d : Option Val)
    (l ll : List (ℚ × Val × String)) (hperm : ll.Perm l) (hne : l ≠ [])
    (hdist : l.Pairwise (fun a b => a.1 ≠ b.1))
    (hreg : ∀ x ∈ l, (motion_types_to_func.lookup x.2.2).isSome = true) :
    ((Motion.init d).extend (l.map (fun x => x.1)) (l.map (fun x => x.2.1))
        (some (l.map (fun x => x.2.2)))).2 = none ∧
    (appendAll (Motion.init d) ll).2 = none ∧
    ∀ q, ((Motion.init d).extend (l.map (fun x => x.1)) (l.map (fun x => x.2.1))
        (some (l.map (fun x => x.2.2)))).1.call q =
      (appendAll (Motion.init d) ll).1.call q := by
  have hA := appendAll_spec ll (Motion.init d) rfl ⟨rfl, rfl⟩
    (by simp [Motion.SortedKeys, Motion.init])
    (fun x hx => hreg x (hperm.subset hx))
  have hmapM := mapM_lookup_of_registered (l.map (fun x => x.2.2))
    (by
      intro s hs
      obtain ⟨x, hx, rfl⟩ := List.mem_map.1 hs
      exact hreg x hx)
  have h1 : (l.map (fun x => x.1)).length = (l.map (fun x => x.2.1)).length := by simp
  have h2 : (l.map (fun x => x.1)).length = (l.map (fun x => x.2.2)).length := by simp
  rw [motion_extend_eq (Motion.init d) _ _ _
    ((l.map (fun x => x.2.2)).map
      (fun s => (motion_types_to_func.lookup s).getD Easing.linear)) h1 h2 rfl hmapM]
  have hz : zip3 ((Motion.init d).keyframes ++ l.map (fun x => x.1))
      ((Motion.init d).values ++ (l.map (fun x => x.2.1)).map Motion._cast)
      ((Motion.init d).motion_types ++ (l.map (fun x => x.2.2)).map
        (fun s => (motion_types_to_func.lookup s).getD Easing.linear)) =
      l.map entryOf := by
    show zip3 (l.map (fun x => x.1)) ((l.map (fun x => x.2.1)).map Motion._cast)
      ((l.map (fun x => x.2.2)).map
        (fun s => (motion_types_to_func.lookup s).getD Easing.linear)) = _
    rw [List.map_map, List.map_map, zip3_map3]
    rfl
  rw [hz]
  have hnel : (l.map entryOf).length ≠ 0 := by
    simp only [List.length_map]
    intro hc
    exact hne (List.length_eq_zero.1 hc)
  have hni : ((l.map entryOf).mergeSort entryLE).isEmpty = false := by
    rw [mergeSort_isEmpty_eq]
    cases hc : l.map entryOf with
    | nil =>
      rw [hc] at hnel
      simp at hnel
    | cons y ys => rfl
  rw [if_neg (by simp [hni])]
  refine ⟨rfl, hA.1, ?_⟩
  intro q
  have hsortE := List.sorted_mergeSort entryLE_trans entryLE_total
    (l.map entryOf)
  have hsortedE : List.Pairwise (fun a b : ℚ × Val × Easing => a.1 ≤ b.1)
      ((l.map entryOf).mergeSort entryLE) :=
    hsortE.imp (fun hab => entryLE_time_le _ _ hab)
  have hApw : List.Pairwise (fun a b : ℚ × Val × Easing => a.1 ≤ b.1)
      (appendAll (Motion.init d) ll).1.entries := by
    have hk : (appendAll (Motion.init d) ll).1.entries.map (fun e => e.1) =
        (appendAll (Motion.init d) ll).1.keyframes :=
      zip3_map_fst _ _ _ hA.2.2.1.1 hA.2.2.1.2
    have hsa : List.Pairwise (· ≤ ·)
        ((appendAll (Motion.init d) ll).1.entries.map (fun e => e.1)) := by
      rw [hk]
      exact hA.2.2.2.1
    exact List.pairwise_map.1 hsa
  have hpermEA : List.Perm ((l.map entryOf).mergeSort entryLE)
      (appendAll (Motion.init d) ll).1.entries := by
    have p1 : List.Perm ((l.map entryOf).mergeSort entryLE) (l.map entryOf) :=
      List.mergeSort_perm _ _
    have p2 : List.Perm (ll.map entryOf) (l.map entryOf) := hperm.map entryOf
    have p3 : List.Perm (appendAll (Motion.init d) ll).1.entries (ll.map entryOf) :=
      hA.2.2.2.2.1
    exact (p1.trans p2.symm).trans p3.symm
  have hdistE : List.Pairwise (fun a b : ℚ × Val × Easing => a.1 ≠ b.1)
      (l.map entryOf) :=
    List.Pairwise.map entryOf (fun a b h => h) hdist
  have hdistzsE : List.Pairwise (fun a b : ℚ × Val × Easing => a.1 ≠ b.1)
      ((l.map entryOf).mergeSort entryLE) :=
    ((List.mergeSort_perm (l.map entryOf) entryLE).pairwise_iff
      (fun h => h.symm)).2 hdistE
  have hdistA : List.Pairwise (fun a b : ℚ × Val × Easing => a.1 ≠ b.1)
      (appendAll (Motion.init d) ll).1.entries :=
    (hpermEA.pairwise_iff (fun h => h.symm)).1 hdistzsE
  have hstrictE : List.Pairwise (fun a b : ℚ × Val × Easing => a.1 < b.1)
      ((l.map entryOf).mergeSort entryLE) :=
    (hsortedE.and hdistzsE).imp (fun hab => lt_of_le_of_ne hab.1 hab.2)
  have hstrictA : List.Pairwise (fun a b : ℚ × Val × Easing => a.1 < b.1)
      (appendAll (Motion.init d) ll).1.entries :=
    (hApw.and hdistA).imp (fun hab => lt_of_le_of_ne hab.1 hab.2)
  haveI : IsAntisymm (ℚ × Val × Easing) (fun a b => a.1 < b.1) :=
    ⟨fun a b hab hba => absurd hba (lt_asymm hab)⟩
  have hEQ : (l.map entryOf).mergeSort entryLE =
      (appendAll (Motion.init d) ll).1.entries :=
    List.eq_of_perm_of_sorted hpermEA hstrictE hstrictA
  have hAk : (appendAll (Motion.init d) ll).1.entries.map (fun e => e.1) =
      (appendAll (Motion.init d) ll).1.keyframes :=
    zip3_map_fst _ _ _ hA.2.2.1.1 hA.2.2.1.2
  have hAv : (appendAll (Motion.init d) ll).1.entries.map (fun e => e.2.1) =
      (appendAll (Motion.init d) ll).1.values :=
    zip3_map_snd _ _ _ hA.2.2.1.1 hA.2.2.1.2
  have hAm : (appendAll (Motion.init d) ll).1.entries.map (fun e => e.2.2) =
      (appendAll (Motion.init d) ll).1.motion_types :=
    zip3_map_thd _ _ _ hA.2.2.1.1 hA.2.2.1.2
  refine motion_call_fields _ _ ?_ ?_ ?_ ?_ q
  · show ((l.map entryOf).mergeSort entryLE).map (fun e => e.1) = _
    rw [hEQ, hAk]
  · show ((l.map entryOf).mergeSort entryLE).map (fun e => e.2.1) = _
    rw [hEQ, hAv]
  · show ((l.map entryOf).mergeSort entryLE).map (fun e => e.2.2) = _
    rw [hEQ, hAm]
  · show d = _
    rw [hA.2.2.2.2.2]
    rfl

/-- Witness for `motion_extend_matches_appends`: the two-keyframe curve built
by one `extend` and by two `append` calls in reversed order agree at `5.0`. -/
theorem motion_extend_matches_appends_witness :
    ((Motion.init none).extend [0, 10] [Val.scalar 0, Val.scalar 100]
        (some ["linear", "linear"])).2 = none ∧
    (appendAll (Motion.init none)
        [(10, Val.scalar 100, "linear"), (0, Val.scalar 0, "linear")]).2 = none ∧
    ((Motion.init none).extend [0, 10] [Val.scalar 0, Val.scalar 100]
        (some ["linear", "linear"])).1.call 5 =
      (appendAll (Motion.init none)
        [(10, Val.scalar 100, "linear"), (0, Val.scalar 0, "linear")]).1.call 5 := by
  have h := motion_extend_matches_appends none
    [(0, Val.scalar 0, "linear"), (10, Val.scalar 100, "linear")]
    [(10, Val.scalar 100, "linear"), (0, Val.scalar 0, "linear")]
    (List.Perm.swap _ _ _) (by simp) (by norm_num [List.pairwise_cons])
    (by decide)
  exact ⟨h.1, h.2.1, h.2.2 5⟩
